import Mathlib

/-!
Verification of the pixel-sorting pipeline (`src/pixel_sort.py`) against its
natural-language specification.

The Python source is shallowly embedded as follows.

* A pixel is an RGB triple of channel intensities.  The images handled by the
  pipeline are `uint8` numpy arrays, so channel values are naturals and the
  `astype(np.uint8)` conversions wrap modulo 256 (the identity on well-formed
  channel values, which are at most 255).
* Images and masks are rectangular buffers: a pair of dimensions together with
  a total indexing function, mirroring the numpy `(row, column)` addressing.
  Numpy writes become functional updates of the indexing function.
* Python floats are idealised as rationals wherever the source performs exact
  arithmetic and comparisons; only the gamma tone curve genuinely needs real
  exponentiation, and it is modelled over `ℝ` with `Real.rpow`.
* `np.random.uniform(-random_offset, random_offset)` is modelled by passing the
  stream of sampled perturbations explicitly as a function of the cell
  coordinates, which makes the mask builder a pure function of its inputs.
* The CPython `sorted` built-in is a stable sort; applied to the distinct indices
  `range(len(span_pixels))` with a key list it returns the unique arrangement
  sorted lexicographically by (key ascending, index ascending), or by
  (key descending, index ascending) when `reverse=True` (stability is preserved
  by `reverse`, which flips only the key comparison).  The embedding sorts the
  index list with exactly that total order, so the result is characterised
  uniquely and independently of the sorting algorithm used.
* The only runtime failure reachable inside `pixel_sort` for in-contract
  arguments is the `ZeroDivisionError` raised by the Python scalar division
  `1/gamma` when `gamma == 0.0`; the pipeline therefore returns an
  `Except PyError Image`.
-/

namespace PixelSorting

/-- An RGB pixel: a triple of channel intensities.  In the pipeline these come
from `uint8` image buffers, so well-formed channels lie in `[0, 255]`. -/
abbrev Pixel : Type := ℕ × ℕ × ℕ

/-- A channel value is well formed when it fits the `uint8` pixel range, as the
image type guarantees for decoded images. -/
def wf_pixel (p : Pixel) : Prop := p.1 ≤ 255 ∧ p.2.1 ≤ 255 ∧ p.2.2 ≤ 255

instance (p : Pixel) : Decidable (wf_pixel p) :=
  inferInstanceAs (Decidable (_ ∧ _ ∧ _))

/-- `luminance(rgb)` from the source: divide each channel by `255.0` and take
the weighted sum `0.299 r + 0.587 g + 0.114 b`. -/
def luminance (p : Pixel) : ℚ :=
  (299 / 1000) * ((p.1 : ℚ) / 255) + (587 / 1000) * ((p.2.1 : ℚ) / 255)
    + (114 / 1000) * ((p.2.2 : ℚ) / 255)

/-- Modelled from the spec: `rgb_to_hsl` delegates to the external
`colour.RGB_to_HSL` primitive, which is not part of this repository.  The spec
fixes its contract: a deterministic, total, pure standard RGB-to-HSL conversion
producing hue, saturation and lightness in `[0,1]`, with hue `0` for achromatic
pixels.  The standard conversion is reproduced here over `ℚ`. -/
def rgb_to_hsl (p : Pixel) : ℚ × ℚ × ℚ :=
  let r : ℚ := (p.1 : ℚ) / 255
  let g : ℚ := (p.2.1 : ℚ) / 255
  let b : ℚ := (p.2.2 : ℚ) / 255
  let cmax := max r (max g b)
  let cmin := min r (min g b)
  let l := (cmax + cmin) / 2
  if cmax = cmin then (0, 0, l)
  else
    let d := cmax - cmin
    let s := if 1 / 2 < l then d / (2 - cmax - cmin) else d / (cmax + cmin)
    let hue :=
      if cmax = r then (g - b) / d + (if g < b then 6 else 0)
      else if cmax = g then (b - r) / d + 2
      else (r - g) / d + 4
    (hue / 6, s, l)

/-- An image: a `height × width` buffer of pixels with row-major `(row, column)`
addressing, as produced by `cv2.imread` after conversion to RGB. -/
structure Image where
  h : ℕ
  w : ℕ
  pix : ℕ → ℕ → Pixel

/-- The mask channels accepted by `create_mask`; the CLI restricts `--channel`
to exactly these four choices, and any other string would leave the local
variable `val` unbound in the source (outside the domain of the operation). -/
inductive Channel where
  | luminance
  | hsl_h
  | hsl_s
  | hsl_l
deriving DecidableEq

/-- The scalar thresholded by `create_mask` for one pixel: the `channel`
dispatch at the top of the mask loop in the source. -/
def metric_value (channel : Channel) (p : Pixel) : ℚ :=
  match channel with
  | .luminance => luminance p
  | .hsl_h => (rgb_to_hsl p).1
  | .hsl_s => (rgb_to_hsl p).2.1
  | .hsl_l => (rgb_to_hsl p).2.2

/-- A binary selection grid of the same dimensions as the image. -/
structure Mask where
  h : ℕ
  w : ℕ
  cell : ℕ → ℕ → Bool

/-- `create_mask` from the source.  For each cell the selected scalar is
computed; if `random_offset > 0` the sampled perturbation `rand y x` is added
and the value clipped to `[0,1]` (`np.clip`); the cell is set exactly when
`low_thresh <= val <= high_thresh`.  The `invert` pass `mask = 1 - mask` flips
every cell afterwards. -/
def create_mask (img : Image) (low_thresh high_thresh : ℚ) (channel : Channel)
    (invert : Bool) (random_offset : ℚ) (rand : ℕ → ℕ → ℚ) : Mask :=
  let base : ℕ → ℕ → Bool := fun y x =>
    let val := metric_value channel (img.pix y x)
    let val := if 0 < random_offset then min 1 (max 0 (val + rand y x)) else val
    decide (low_thresh ≤ val ∧ val ≤ high_thresh)
  { h := img.h
    w := img.w
    cell := if invert then fun y x => !(base y x) else base }

/-- The scan loop of `identify_spans` for a single scan line, with the line
accessed through `get` and of length `len = fuel + pos`.  The state `st` is
`some start` while inside a run of set cells and `none` otherwise.  The source
advances `x` once more after appending a span; that extra step lands on the
cell just observed to be clear (or past the end of the line), so examining each
cell exactly once, as done here, emits the same spans. -/
def scan_go (get : ℕ → Bool) : ℕ → ℕ → Option ℕ → List (ℕ × ℕ)
  | 0, _, none => []
  | 0, pos, some s => [(s, pos)]
  | fuel + 1, pos, none =>
      if get pos then scan_go get fuel (pos + 1) (some pos)
      else scan_go get fuel (pos + 1) none
  | fuel + 1, pos, some s =>
      if get pos then scan_go get fuel (pos + 1) (some s)
      else (s, pos) :: scan_go get fuel (pos + 1) none

/-- One scan line of `identify_spans`: the `(start, end)` pairs of the maximal
runs of set cells in a line of length `len`. -/
def scan_line (get : ℕ → Bool) (len : ℕ) : List (ℕ × ℕ) :=
  scan_go get len 0 none

/-- `identify_spans` from the source: horizontal mode scans each row
left-to-right emitting `(row, start, end)`; vertical mode scans each column
top-to-bottom emitting `(col, start, end)`.  End offsets are exclusive. -/
def identify_spans (mask : Mask) (horizontal : Bool) : List (ℕ × ℕ × ℕ) :=
  if horizontal then
    (List.range mask.h).flatMap fun y =>
      (scan_line (fun x => mask.cell y x) mask.w).map fun p => (y, p.1, p.2)
  else
    (List.range mask.w).flatMap fun x =>
      (scan_line (fun y => mask.cell y x) mask.h).map fun p => (x, p.1, p.2)

/-- Length of one scan line: the row length `w` in horizontal mode, the column
length `h` in vertical mode. -/
def line_len (mask : Mask) (horizontal : Bool) : ℕ :=
  if horizontal then mask.w else mask.h

/-- The cell at offset `off` of scan line `idx`: `mask[idx, off]` in horizontal
mode and `mask[off, idx]` in vertical mode. -/
def line_cell (mask : Mask) (horizontal : Bool) (idx off : ℕ) : Bool :=
  if horizontal then mask.cell idx off else mask.cell off idx

/-- The `np.array(sorted_pixels, dtype=np.uint8)` conversion at the end of
`sort_span`: each channel value wraps modulo 256.  On well-formed pixels (all
channels at most 255, as in every pipeline use) this is the identity. -/
def px_mod (p : Pixel) : Pixel := (p.1 % 256, p.2.1 % 256, p.2.2 % 256)

/-- The key list computed at the top of `sort_span`.  The source fills `keys`
with one branch per metric (the three HSL metrics share one loop over
`rgb_to_hsl`); an unlisted metric falls back to `list(range(len(...)))`. -/
def span_keys (metric : String) (span_pixels : List Pixel) : List ℚ :=
  if metric = "luminance" then span_pixels.map (fun p => luminance p)
  else if metric = "r" then span_pixels.map (fun p => (p.1 : ℚ))
  else if metric = "g" then span_pixels.map (fun p => (p.2.1 : ℚ))
  else if metric = "b" then span_pixels.map (fun p => (p.2.2 : ℚ))
  else if metric = "hsl_h" then span_pixels.map (fun p => (rgb_to_hsl p).1)
  else if metric = "hsl_s" then span_pixels.map (fun p => (rgb_to_hsl p).2.1)
  else if metric = "hsl_l" then span_pixels.map (fun p => (rgb_to_hsl p).2.2)
  else (List.range span_pixels.length).map (fun i : ℕ => (i : ℚ))

/-- The total order in which the stable CPython `sorted` built-in arranges the distinct
indices `range(n)` under `key=lambda i: keys[i]`: lexicographic by key
ascending then index ascending, with the key comparison flipped (and the index
tie-break kept, per stability of `reverse=True`) in descending mode. -/
def key_order (keys : List ℚ) (reverse : Bool) (i j : ℕ) : Prop :=
  match reverse with
  | false => keys.getD i 0 < keys.getD j 0 ∨ (keys.getD i 0 = keys.getD j 0 ∧ i ≤ j)
  | true => keys.getD j 0 < keys.getD i 0 ∨ (keys.getD j 0 = keys.getD i 0 ∧ i ≤ j)

instance (keys : List ℚ) (reverse : Bool) (i j : ℕ) :
    Decidable (key_order keys reverse i j) :=
  match reverse with
  | false => inferInstanceAs (Decidable (_ ∨ _))
  | true => inferInstanceAs (Decidable (_ ∨ _))

instance (keys : List ℚ) (reverse : Bool) : IsTotal ℕ (key_order keys reverse) where
  total i j := by
    cases reverse <;> unfold key_order <;>
      rcases lt_trichotomy (keys.getD i 0) (keys.getD j 0) with h | h | h <;>
      rcases Nat.le_total i j with hij | hij <;>
      first
        | exact Or.inl (Or.inl h)
        | exact Or.inr (Or.inl h)
        | exact Or.inl (Or.inr ⟨h, hij⟩)
        | exact Or.inr (Or.inr ⟨h.symm, hij⟩)
        | exact Or.inl (Or.inr ⟨h.symm, hij⟩)
        | exact Or.inr (Or.inr ⟨h, hij⟩)

instance (keys : List ℚ) (reverse : Bool) : IsTrans ℕ (key_order keys reverse) where
  trans i j k hij hjk := by
    cases reverse <;> unfold key_order at * <;>
      rcases hij with h1 | ⟨h1, h1'⟩ <;> rcases hjk with h2 | ⟨h2, h2'⟩
    · exact Or.inl (h1.trans h2)
    · exact Or.inl (h2 ▸ h1)
    · exact Or.inl (h1 ▸ h2)
    · exact Or.inr ⟨h1.trans h2, h1'.trans h2'⟩
    · exact Or.inl (h2.trans h1)
    · exact Or.inl (h2 ▸ h1)
    · exact Or.inl (h1 ▸ h2)
    · exact Or.inr ⟨h2.trans h1, h1'.trans h2'⟩

instance (keys : List ℚ) (reverse : Bool) : IsAntisymm ℕ (key_order keys reverse) where
  antisymm i j hij hji := by
    cases reverse <;> unfold key_order at hij hji <;>
      rcases hij with h1 | ⟨h1, h1'⟩ <;> rcases hji with h2 | ⟨h2, h2'⟩ <;>
      first
        | exact Nat.le_antisymm h1' h2'
        | exact ((by linarith : False)).elim

/-- The index list `sorted(range(n), key=lambda i: keys[i], reverse=reverse)`
of `sort_span`: the unique arrangement of `range n` sorted by `key_order`. -/
def sorted_indices (keys : List ℚ) (reverse : Bool) (n : ℕ) : List ℕ :=
  List.insertionSort (key_order keys reverse) (List.range n)

/-- `sort_span` from the source: compute the key per pixel, sort the index list
stably by key (descending when `reverse`), gather the pixels in that order and
convert the result back to a `uint8` array. -/
def sort_span (span_pixels : List Pixel) (metric : String) (reverse : Bool) :
    List Pixel :=
  let keys := span_keys metric span_pixels
  let idxs := sorted_indices keys reverse span_pixels.length
  (idxs.map (fun i => span_pixels.getD i (0, 0, 0))).map px_mod

/-- One iteration of the span write-back loop of `pixel_sort`: gather the
span's pixels from the current output buffer, sort them, and write the sorted
run back over the same index range (`out[y, start:end] = sorted_span` in
horizontal mode, the explicit row loop in vertical mode). -/
def process_span (horizontal : Bool) (metric : String) (reverse : Bool)
    (out : Image) (span : ℕ × ℕ × ℕ) : Image :=
  if horizontal then
    let y := span.1
    let start := span.2.1
    let stop := span.2.2
    let span_pixels := (List.range' start (stop - start)).map fun x => out.pix y x
    let sorted_span := sort_span span_pixels metric reverse
    { out with pix := fun r c =>
        if r = y ∧ start ≤ c ∧ c < stop then sorted_span.getD (c - start) (out.pix r c)
        else out.pix r c }
  else
    let x := span.1
    let start := span.2.1
    let stop := span.2.2
    let span_pixels := (List.range' start (stop - start)).map fun y => out.pix y x
    let sorted_span := sort_span span_pixels metric reverse
    { out with pix := fun r c =>
        if c = x ∧ start ≤ r ∧ r < stop then sorted_span.getD (r - start) (out.pix r c)
        else out.pix r c }

/-- The sorting stage of `pixel_sort`: start from `out = img.copy()`, build the
mask, extract the spans, and process each span in order against the evolving
output buffer. -/
def sort_stage (img : Image) (low_thresh high_thresh : ℚ) (channel : Channel)
    (invert : Bool) (random_offset : ℚ) (rand : ℕ → ℕ → ℚ) (horizontal : Bool)
    (metric : String) (reverse : Bool) : Image :=
  let out := img
  let mask := create_mask img low_thresh high_thresh channel invert random_offset rand
  let spans := identify_spans mask horizontal
  spans.foldl (process_span horizontal metric reverse) out

/-- The per-channel gamma tone map from the last line of `pixel_sort`:
`np.clip(((v/255.0) ** (1/gamma)) * 255, 0, 255).astype(np.uint8)`.
`np.clip(x, 0, 255)` is `min 255 (max 0 x)`, and `astype(np.uint8)` of a
non-negative clipped float truncates to its integer part. -/
noncomputable def gamma_channel (gamma : ℚ) (v : ℕ) : ℕ :=
  (⌊min 255 (max 0 ((((v : ℝ) / 255) ^ ((1 : ℝ) / (gamma : ℝ))) * 255))⌋).toNat

/-- Modelled from the spec: `apply_gamma` §4.6, "for each channel value `v` in
[0,255]: `clamp(((v/255)^(1/gamma)) * 255, 0, 255)`, rounded to the
integer pixel range".  The rounding to the integer range is the truncation the
integral conversion performs. -/
noncomputable def spec_gamma_channel (gamma : ℚ) (v : ℕ) : ℕ :=
  (⌊min 255 (max 0 ((((v : ℝ) / 255) ^ ((1 : ℝ) / (gamma : ℝ))) * 255))⌋).toNat

/-- The whole-buffer gamma correction: the numpy expression applies the tone
map to every channel of every pixel at once. -/
noncomputable def apply_gamma (img : Image) (gamma : ℚ) : Image :=
  { img with pix := fun y x =>
      (gamma_channel gamma (img.pix y x).1,
       gamma_channel gamma (img.pix y x).2.1,
       gamma_channel gamma (img.pix y x).2.2) }

/-- The runtime error reachable inside `pixel_sort`: the Python scalar division
`1/gamma` raises `ZeroDivisionError` when `gamma == 0.0`. -/
inductive PyError where
  | zeroDivisionError
deriving DecidableEq

/-- `pixel_sort` from the source: copy the input, build the mask, extract and
process the spans, then apply gamma correction whenever `gamma != 1.0`.  The
source performs no validation of `gamma`; the only failure is the
`ZeroDivisionError` from `1/gamma` at `gamma = 0`. -/
noncomputable def pixel_sort (img : Image) (low_thresh high_thresh : ℚ)
    (channel : Channel) (invert : Bool) (random_offset : ℚ) (rand : ℕ → ℕ → ℚ)
    (horizontal : Bool) (metric : String) (reverse : Bool) (gamma : ℚ) :
    Except PyError Image :=
  let out := sort_stage img low_thresh high_thresh channel invert random_offset
    rand horizontal metric reverse
  if gamma ≠ 1 then
    if gamma = 0 then .error .zeroDivisionError
    else .ok (apply_gamma out gamma)
  else .ok out

/-- Whether the pipeline writes position `(y, x)` when processing `span`: the
exact write condition of the span write-back loop. -/
def span_covers (horizontal : Bool) (span : ℕ × ℕ × ℕ) (y x : ℕ) : Prop :=
  match horizontal with
  | true => span.1 = y ∧ span.2.1 ≤ x ∧ x < span.2.2
  | false => span.1 = x ∧ span.2.1 ≤ y ∧ y < span.2.2

instance (horizontal : Bool) (span : ℕ × ℕ × ℕ) (y x : ℕ) :
    Decidable (span_covers horizontal span y x) :=
  match horizontal with
  | true => inferInstanceAs (Decidable (_ ∧ _ ∧ _))
  | false => inferInstanceAs (Decidable (_ ∧ _ ∧ _))

/-! ## Helper lemmas -/

theorem map_getD_range {α : Type} (l : List α) (d : α) :
    (List.range l.length).map (fun i => l.getD i d) = l := by
  induction l with
  | nil => rfl
  | cons a t ih =>
    rw [List.length_cons, List.range_succ_eq_map, List.map_cons, List.map_map]
    have h : ((fun i => (a :: t).getD i d) ∘ Nat.succ) = fun i => t.getD i d := by
      funext i; rfl
    rw [h, ih]
    rfl

theorem px_mod_id {p : Pixel} (hp : wf_pixel p) : px_mod p = p := by
  obtain ⟨a, b, c⟩ := p
  simp only [wf_pixel] at hp
  obtain ⟨h1, h2, h3⟩ := hp
  have ha : a % 256 = a := Nat.mod_eq_of_lt (by omega)
  have hb : b % 256 = b := Nat.mod_eq_of_lt (by omega)
  have hc : c % 256 = c := Nat.mod_eq_of_lt (by omega)
  simp [px_mod, ha, hb, hc]

theorem map_px_mod_id {l : List Pixel} (h : ∀ q ∈ l, wf_pixel q) :
    l.map px_mod = l := by
  induction l with
  | nil => rfl
  | cons a t ih =>
    rw [List.map_cons, px_mod_id (h a (by simp)), ih fun q hq => h q (by simp [hq])]

theorem sorted_indices_perm (keys : List ℚ) (reverse : Bool) (n : ℕ) :
    (sorted_indices keys reverse n).Perm (List.range n) :=
  List.perm_insertionSort _ _

theorem sorted_indices_sorted (keys : List ℚ) (reverse : Bool) (n : ℕ) :
    List.Sorted (key_order keys reverse) (sorted_indices keys reverse n) :=
  List.sorted_insertionSort _ _

theorem sorted_indices_map_perm (span_pixels : List Pixel) (keys : List ℚ)
    (reverse : Bool) :
    ((sorted_indices keys reverse span_pixels.length).map
        (fun i => span_pixels.getD i ((0, 0, 0) : Pixel))).Perm span_pixels := by
  have h := (sorted_indices_perm keys reverse span_pixels.length).map
    (fun i => span_pixels.getD i ((0, 0, 0) : Pixel))
  rwa [map_getD_range span_pixels ((0, 0, 0) : Pixel)] at h

/-- Concrete one-pixel black image used to instantiate theorems with
hypotheses. -/
def img1 : Image := { h := 1, w := 1, pix := fun _ _ => (0, 0, 0) }

/-- Concrete zero perturbation stream used to instantiate theorems with
hypotheses. -/
def rand0 : ℕ → ℕ → ℚ := fun _ _ => 0

/-! ## Claims about the mask builder -/

/-- Claim C5: for every image and every threshold pair with `low > high`,
`create_mask` selects no pixel: every cell of the grid is false before
inversion, hence every cell equals the `invert` flag after the inversion pass;
this is defined behavior, not an error. -/
theorem c5_low_gt_high_empty_mask (img : Image) (low high : ℚ) (channel : Channel)
    (invert : Bool) (random_offset : ℚ) (rand : ℕ → ℕ → ℚ) (y x : ℕ)
    (h : high < low) :
    (create_mask img low high channel invert random_offset rand).cell y x = invert := by
  have hbase : ∀ v : ℚ, decide (low ≤ v ∧ v ≤ high) = false := by
    intro v
    simp only [decide_eq_false_iff_not]
    rintro ⟨h1, h2⟩
    exact absurd (h1.trans h2) (not_le.mpr h)
  cases invert <;> simp [create_mask, hbase]

/-- Witness for C5 at a concrete input: `low = 1 > 1/2 = high` with `invert`
set yields a set cell. -/
theorem c5_witness :
    (1 : ℚ) / 2 < 1 ∧
      (create_mask img1 1 (1 / 2) .luminance true 0 rand0).cell 0 0 = true :=
  ⟨by norm_num,
    c5_low_gt_high_empty_mask img1 1 (1 / 2) .luminance true 0 rand0 0 0 (by norm_num)⟩

/-- Claim C8: with `jitter = 0` and a valid channel, `create_mask` marks a cell
exactly when `low ≤ metric(pixel) ≤ high` (inclusive at both ends), and when
`invert` is set every cell is flipped after this rule is applied. -/
theorem c8_mask_threshold_rule (img : Image) (low high : ℚ) (channel : Channel)
    (invert : Bool) (rand : ℕ → ℕ → ℚ) (y x : ℕ) :
    (create_mask img low high channel invert 0 rand).cell y x =
      (if invert then
        !(decide (low ≤ metric_value channel (img.pix y x) ∧
          metric_value channel (img.pix y x) ≤ high))
      else
        decide (low ≤ metric_value channel (img.pix y x) ∧
          metric_value channel (img.pix y x) ≤ high)) := by
  cases invert <;> simp [create_mask]

/-! ## Claims about the span sorter -/

/-- Claim C4: for every pixel sequence of well-formed pixels, every metric
string and both sort orders, `sort_span` returns a permutation of its input
(the function is total, so no failure mode exists), and a zero-length input
yields a zero-length output. -/
theorem c4_sort_span_perm (span_pixels : List Pixel) (metric : String)
    (reverse : Bool) (hwf : ∀ p ∈ span_pixels, wf_pixel p) :
    (sort_span span_pixels metric reverse).Perm span_pixels ∧
      sort_span [] metric reverse = [] := by
  refine ⟨?_, rfl⟩
  have hmap := sorted_indices_map_perm span_pixels (span_keys metric span_pixels) reverse
  have hid : ((sorted_indices (span_keys metric span_pixels) reverse
      span_pixels.length).map (fun i => span_pixels.getD i ((0, 0, 0) : Pixel))).map px_mod
      = (sorted_indices (span_keys metric span_pixels) reverse span_pixels.length).map
        (fun i => span_pixels.getD i ((0, 0, 0) : Pixel)) :=
    map_px_mod_id fun q hq => hwf q (hmap.subset hq)
  simp only [sort_span]
  rw [hid]
  exact hmap

/-- Witness for C4 at a concrete two-pixel span. -/
theorem c4_witness :
    (∀ p ∈ [((10, 20, 30) : Pixel), (5, 5, 5)], wf_pixel p) ∧
      ((sort_span [((10, 20, 30) : Pixel), (5, 5, 5)] "r" false).Perm
          [((10, 20, 30) : Pixel), (5, 5, 5)] ∧
        sort_span [] "r" false = []) :=
  ⟨by decide, c4_sort_span_perm [((10, 20, 30) : Pixel), (5, 5, 5)] "r" false (by decide)⟩

/-- Claim C3: `sort_span` sorts stably by the computed key, ascending or
descending per the flag.  Reading the sorted index arrangement left to right,
any two positions holding equal keys carry their original indices in
increasing order (pixels with equal keys retain their original relative
order), and a span whose keys are all equal is returned as the identity
permutation. -/
theorem c3_sort_span_stable (span_pixels : List Pixel) (metric : String)
    (reverse : Bool)
    (hmetric : metric ∈ ["luminance", "r", "g", "b", "hsl_h", "hsl_s", "hsl_l"])
    (hwf : ∀ p ∈ span_pixels, wf_pixel p) :
    (∀ a b (ha : a < (sorted_indices (span_keys metric span_pixels) reverse
          span_pixels.length).length)
        (hb : b < (sorted_indices (span_keys metric span_pixels) reverse
          span_pixels.length).length),
      a < b →
      (span_keys metric span_pixels).getD
          ((sorted_indices (span_keys metric span_pixels) reverse
            span_pixels.length).get ⟨a, ha⟩) 0 =
        (span_keys metric span_pixels).getD
          ((sorted_indices (span_keys metric span_pixels) reverse
            span_pixels.length).get ⟨b, hb⟩) 0 →
      (sorted_indices (span_keys metric span_pixels) reverse
          span_pixels.length).get ⟨a, ha⟩ <
        (sorted_indices (span_keys metric span_pixels) reverse
          span_pixels.length).get ⟨b, hb⟩)
    ∧ ((∀ i j, i < span_pixels.length → j < span_pixels.length →
          (span_keys metric span_pixels).getD i 0 =
            (span_keys metric span_pixels).getD j 0) →
        sort_span span_pixels metric reverse = span_pixels) := by
  constructor
  · intro a b ha hb hab heq
    have hsorted := sorted_indices_sorted (span_keys metric span_pixels) reverse
      span_pixels.length
    have hperm := sorted_indices_perm (span_keys metric span_pixels) reverse
      span_pixels.length
    have hnodup : (sorted_indices (span_keys metric span_pixels) reverse
        span_pixels.length).Nodup := hperm.symm.nodup (List.nodup_range _)
    have hrel : key_order (span_keys metric span_pixels) reverse
        ((sorted_indices (span_keys metric span_pixels) reverse
          span_pixels.length).get ⟨a, ha⟩)
        ((sorted_indices (span_keys metric span_pixels) reverse
          span_pixels.length).get ⟨b, hb⟩) := by
      have h := List.pairwise_iff_getElem.mp hsorted a b ha hb hab
      simpa [List.get_eq_getElem] using h
    have hne : (sorted_indices (span_keys metric span_pixels) reverse
        span_pixels.length).get ⟨a, ha⟩ ≠
        (sorted_indices (span_keys metric span_pixels) reverse
          span_pixels.length).get ⟨b, hb⟩ := by
      intro h
      have h2 := hnodup.get_inj_iff.mp h
      have h3 : a = b := congrArg Fin.val h2
      omega
    cases reverse <;> simp only [key_order] at hrel <;>
      rcases hrel with h | ⟨h, hle⟩
    · rw [heq] at h
      exact absurd h (lt_irrefl _)
    · exact lt_of_le_of_ne hle hne
    · rw [heq] at h
      exact absurd h (lt_irrefl _)
    · exact lt_of_le_of_ne hle hne
  · intro hall
    have hsorted_range : List.Sorted (key_order (span_keys metric span_pixels) reverse)
        (List.range span_pixels.length) := by
      apply List.pairwise_iff_getElem.mpr
      intro i j hi hj hij
      rw [List.getElem_range, List.getElem_range]
      have hi' : i < span_pixels.length := by simpa using hi
      have hj' : j < span_pixels.length := by simpa using hj
      have hk := hall i j hi' hj'
      cases reverse <;> simp only [key_order]
      · exact Or.inr ⟨hk, le_of_lt hij⟩
      · exact Or.inr ⟨hk.symm, le_of_lt hij⟩
    have hsi : sorted_indices (span_keys metric span_pixels) reverse
        span_pixels.length = List.range span_pixels.length :=
      hsorted_range.insertionSort_eq
    simp only [sort_span, sorted_indices] at hsi ⊢
    rw [hsi, map_getD_range span_pixels ((0, 0, 0) : Pixel), map_px_mod_id hwf]

/-- Witness for C3 at a concrete one-pixel span with the luminance metric. -/
theorem c3_witness :
    (("luminance" ∈ ["luminance", "r", "g", "b", "hsl_h", "hsl_s", "hsl_l"]) ∧
      (∀ p ∈ [((7, 7, 7) : Pixel)], wf_pixel p)) ∧
      ((∀ i j, i < ([((7, 7, 7) : Pixel)]).length → j < ([((7, 7, 7) : Pixel)]).length →
          (span_keys "luminance" [((7, 7, 7) : Pixel)]).getD i 0 =
            (span_keys "luminance" [((7, 7, 7) : Pixel)]).getD j 0) →
        sort_span [((7, 7, 7) : Pixel)] "luminance" false = [((7, 7, 7) : Pixel)]) :=
  ⟨⟨by decide, by decide⟩,
    (c3_sort_span_stable [((7, 7, 7) : Pixel)] "luminance" false (by decide) (by decide)).2⟩

/-- Counterexample to claim C1 as stated: with the unrecognized metric `"q"`
and the descending flag set, `sort_span` does not return the pixels in their
original positions — the fallback keys `range(n)` are distinct, so
`reverse=True` reverses the span. -/
theorem c1_counterexample :
    sort_span [((0, 0, 0) : Pixel), (1, 1, 1)] "q" true ≠
      [((0, 0, 0) : Pixel), (1, 1, 1)] := by
  decide

/-- Claim C1, amended: `sort_span` with a metric outside the recognized set
falls back to the index keys `range(n)`; with the descending flag unset this
yields identity order, but with the descending flag set the span comes back
reversed. -/
theorem c1_fallback_order (span_pixels : List Pixel) (metric : String)
    (hmetric : metric ∉ ["luminance", "r", "g", "b", "hsl_h", "hsl_s", "hsl_l"])
    (hwf : ∀ p ∈ span_pixels, wf_pixel p) :
    sort_span span_pixels metric false = span_pixels ∧
      sort_span span_pixels metric true = span_pixels.reverse := by
  have h1 : metric ≠ "luminance" := fun h => hmetric (by simp [h])
  have h2 : metric ≠ "r" := fun h => hmetric (by simp [h])
  have h3 : metric ≠ "g" := fun h => hmetric (by simp [h])
  have h4 : metric ≠ "b" := fun h => hmetric (by simp [h])
  have h5 : metric ≠ "hsl_h" := fun h => hmetric (by simp [h])
  have h6 : metric ≠ "hsl_s" := fun h => hmetric (by simp [h])
  have h7 : metric ≠ "hsl_l" := fun h => hmetric (by simp [h])
  have hkeys : span_keys metric span_pixels =
      (List.range span_pixels.length).map (fun i : ℕ => (i : ℚ)) := by
    simp [span_keys, h1, h2, h3, h4, h5, h6, h7]
  have hgd : ∀ i, i < span_pixels.length →
      (span_keys metric span_pixels).getD i 0 = (i : ℚ) := by
    intro i hi
    rw [hkeys, List.getD_eq_getElem?_getD, List.getElem?_map,
      List.getElem?_range hi]
    rfl
  constructor
  · have hsorted_range : List.Sorted (key_order (span_keys metric span_pixels) false)
        (List.range span_pixels.length) := by
      apply List.pairwise_iff_getElem.mpr
      intro i j hi hj hij
      rw [List.getElem_range, List.getElem_range]
      have hi' : i < span_pixels.length := by simpa using hi
      have hj' : j < span_pixels.length := by simpa using hj
      simp only [key_order, hgd i hi', hgd j hj']
      exact Or.inl (by exact_mod_cast hij)
    have hsi : sorted_indices (span_keys metric span_pixels) false
        span_pixels.length = List.range span_pixels.length :=
      hsorted_range.insertionSort_eq
    simp only [sort_span, sorted_indices] at hsi ⊢
    rw [hsi, map_getD_range span_pixels ((0, 0, 0) : Pixel), map_px_mod_id hwf]
  · have hsorted_rev : List.Sorted (key_order (span_keys metric span_pixels) true)
        (List.range span_pixels.length).reverse := by
      apply List.pairwise_reverse.mpr
      apply List.pairwise_iff_getElem.mpr
      intro i j hi hj hij
      rw [List.getElem_range, List.getElem_range]
      have hi' : i < span_pixels.length := by simpa using hi
      have hj' : j < span_pixels.length := by simpa using hj
      simp only [key_order, hgd i hi', hgd j hj']
      exact Or.inl (by exact_mod_cast hij)
    have hsi : sorted_indices (span_keys metric span_pixels) true
        span_pixels.length = (List.range span_pixels.length).reverse :=
      List.eq_of_perm_of_sorted
        ((sorted_indices_perm _ _ _).trans (List.reverse_perm _).symm)
        (sorted_indices_sorted _ _ _) hsorted_rev
    have hwfr : ∀ q ∈ span_pixels.reverse, wf_pixel q := by
      intro q hq
      exact hwf q (List.mem_reverse.mp hq)
    simp only [sort_span, sorted_indices] at hsi ⊢
    rw [hsi, List.map_reverse, map_getD_range span_pixels ((0, 0, 0) : Pixel),
      map_px_mod_id hwfr]

/-- Witness for the amended C1 at a concrete two-pixel span. -/
theorem c1_witness :
    (("q" ∉ ["luminance", "r", "g", "b", "hsl_h", "hsl_s", "hsl_l"]) ∧
      (∀ p ∈ [((0, 0, 0) : Pixel), (2, 2, 2)], wf_pixel p)) ∧
      (sort_span [((0, 0, 0) : Pixel), (2, 2, 2)] "q" false =
          [((0, 0, 0) : Pixel), (2, 2, 2)] ∧
        sort_span [((0, 0, 0) : Pixel), (2, 2, 2)] "q" true =
          [((0, 0, 0) : Pixel), (2, 2, 2)].reverse) :=
  ⟨⟨by decide, by decide⟩,
    c1_fallback_order [((0, 0, 0) : Pixel), (2, 2, 2)] "q" (by decide) (by decide)⟩

/-! ## Claims about the span extractor -/

theorem scan_go_spec (get : ℕ → Bool) :
    ∀ (fuel pos : ℕ) (st : Option ℕ),
      (st = none → pos = 0 ∨ get (pos - 1) = false) →
      (∀ s, st = some s → s < pos ∧ (∀ i, s ≤ i → i < pos → get i = true) ∧
        (s = 0 ∨ get (s - 1) = false)) →
      (∀ p ∈ scan_go get fuel pos st,
          p.1 < p.2 ∧ p.2 ≤ pos + fuel ∧
          (∀ i, p.1 ≤ i → i < p.2 → get i = true) ∧
          (p.1 = 0 ∨ get (p.1 - 1) = false) ∧
          (p.2 < pos + fuel → get p.2 = false) ∧
          (∀ s, st = some s → s ≤ p.1) ∧
          (st = none → pos ≤ p.1))
        ∧ List.Pairwise (fun p q : ℕ × ℕ => p.2 < q.1) (scan_go get fuel pos st) := by
  intro fuel
  induction fuel with
  | zero =>
    intro pos st hnone hsome
    cases st with
    | none => simp [scan_go]
    | some s =>
      obtain ⟨hs1, hs2, hs3⟩ := hsome s rfl
      constructor
      · intro p hp
        simp only [scan_go, List.mem_singleton] at hp
        subst hp
        refine ⟨hs1, by omega, hs2, hs3, by omega, ?_, ?_⟩
        · intro s' hs'
          injection hs' with hs'
          omega
        · intro h
          exact Option.noConfusion h
      · simp [scan_go]
  | succ fuel ih =>
    intro pos st hnone hsome
    have harith : pos + 1 + fuel = pos + (fuel + 1) := by omega
    cases st with
    | none =>
      by_cases hget : get pos = true
      · have heq : scan_go get (fuel + 1) pos none = scan_go get fuel (pos + 1) (some pos) := by
          simp [scan_go, hget]
        have hrec := ih (pos + 1) (some pos) (fun h => Option.noConfusion h)
          (by
            intro s' hs'
            injection hs' with hs'
            subst hs'
            refine ⟨by omega, ?_, hnone rfl⟩
            intro i h1 h2
            have hip : i = pos := by omega
            rw [hip]
            exact hget)
        rw [heq]
        constructor
        · intro p hp
          obtain ⟨q1, q2, q3, q4, q5, q6, _⟩ := hrec.1 p hp
          refine ⟨q1, by omega, q3, q4, ?_, ?_, ?_⟩
          · intro h
            exact q5 (by omega)
          · intro s' hs'
            exact Option.noConfusion hs'
          · intro _
            have := q6 pos rfl
            omega
        · exact hrec.2
      · have heq : scan_go get (fuel + 1) pos none = scan_go get fuel (pos + 1) none := by
          simp [scan_go, hget]
        have hget' : get pos = false := by simpa using hget
        have hrec := ih (pos + 1) none (fun _ => Or.inr (by simpa using hget'))
          (fun s' hs' => Option.noConfusion hs')
        rw [heq]
        constructor
        · intro p hp
          obtain ⟨q1, q2, q3, q4, q5, _, q7⟩ := hrec.1 p hp
          refine ⟨q1, by omega, q3, q4, ?_, ?_, ?_⟩
          · intro h
            exact q5 (by omega)
          · intro s' hs'
            exact Option.noConfusion hs'
          · intro _
            have := q7 rfl
            omega
        · exact hrec.2
    | some s =>
      obtain ⟨hs1, hs2, hs3⟩ := hsome s rfl
      by_cases hget : get pos = true
      · have heq : scan_go get (fuel + 1) pos (some s) = scan_go get fuel (pos + 1) (some s) := by
          simp [scan_go, hget]
        have hrec := ih (pos + 1) (some s) (fun h => Option.noConfusion h)
          (by
            intro s' hs'
            injection hs' with hs'
            subst hs'
            refine ⟨by omega, ?_, hs3⟩
            intro i h1 h2
            by_cases hi : i < pos
            · exact hs2 i h1 hi
            · have hip : i = pos := by omega
              rw [hip]
              exact hget)
        rw [heq]
        constructor
        · intro p hp
          obtain ⟨q1, q2, q3, q4, q5, q6, _⟩ := hrec.1 p hp
          refine ⟨q1, by omega, q3, q4, ?_, ?_, ?_⟩
          · intro h
            exact q5 (by omega)
          · intro s' hs'
            exact q6 s' hs'
          · intro h
            exact Option.noConfusion h
        · exact hrec.2
      · have heq : scan_go get (fuel + 1) pos (some s) =
            (s, pos) :: scan_go get fuel (pos + 1) none := by
          simp [scan_go, hget]
        have hget' : get pos = false := by simpa using hget
        have hrec := ih (pos + 1) none (fun _ => Or.inr (by simpa using hget'))
          (fun s' hs' => Option.noConfusion hs')
        rw [heq]
        constructor
        · intro p hp
          rcases List.mem_cons.mp hp with hhead | htail
          · subst hhead
            refine ⟨hs1, by omega, hs2, hs3, fun _ => hget', ?_, ?_⟩
            · intro s' hs'
              injection hs' with hs'
              omega
            · intro h
              exact Option.noConfusion h
          · obtain ⟨q1, q2, q3, q4, q5, _, q7⟩ := hrec.1 p htail
            have hq7 := q7 rfl
            refine ⟨q1, by omega, q3, q4, ?_, ?_, ?_⟩
            · intro h
              exact q5 (by omega)
            · intro s' hs'
              injection hs' with hs'
              omega
            · intro h
              exact Option.noConfusion h
        · apply List.pairwise_cons.mpr
          refine ⟨?_, hrec.2⟩
          intro q hq
          have := (hrec.1 q hq).2.2.2.2.2.2 rfl
          omega

theorem scan_line_spec (get : ℕ → Bool) (len : ℕ) :
    (∀ p ∈ scan_line get len,
        p.1 < p.2 ∧ p.2 ≤ len ∧
        (∀ i, p.1 ≤ i → i < p.2 → get i = true) ∧
        (0 < p.1 → get (p.1 - 1) = false) ∧
        (p.2 < len → get p.2 = false))
      ∧ List.Pairwise (fun p q : ℕ × ℕ => p.2 < q.1) (scan_line get len) := by
  have h := scan_go_spec get len 0 none (fun _ => Or.inl rfl)
    (fun s hs => Option.noConfusion hs)
  constructor
  · intro p hp
    obtain ⟨q1, q2, q3, q4, q5, _, _⟩ := h.1 p hp
    refine ⟨q1, by omega, q3, ?_, ?_⟩
    · intro hpos
      exact q4.resolve_left (by omega)
    · intro hlt
      exact q5 (by omega)
  · exact h.2

/-- Claim C6: every span emitted by `identify_spans` satisfies `end > start`,
covers only set cells, and is maximal (the cells at `start - 1` and at `end` on
the same scan line are clear whenever they are in bounds); the emitted sequence
is ordered by ascending scan-line index and, within a line, ascending start
offset, with the spans of one line pairwise non-overlapping and non-adjacent
(strict gap between consecutive spans). -/
theorem c6_span_invariants (mask : Mask) (horizontal : Bool) :
    (∀ sp ∈ identify_spans mask horizontal,
        sp.2.1 < sp.2.2 ∧ sp.2.2 ≤ line_len mask horizontal ∧
        (∀ i, sp.2.1 ≤ i → i < sp.2.2 → line_cell mask horizontal sp.1 i = true) ∧
        (0 < sp.2.1 → line_cell mask horizontal sp.1 (sp.2.1 - 1) = false) ∧
        (sp.2.2 < line_len mask horizontal → line_cell mask horizontal sp.1 sp.2.2 = false))
      ∧ List.Pairwise (fun a b : ℕ × ℕ × ℕ => a.1 < b.1 ∨ (a.1 = b.1 ∧ a.2.2 < b.2.1))
        (identify_spans mask horizontal) := by
  cases horizontal <;>
    simp only [identify_spans, line_len, line_cell, Bool.false_eq_true, if_false, if_true] <;>
    constructor
  · intro sp hsp
    simp only [List.mem_flatMap, List.mem_map] at hsp
    obtain ⟨x, hx, p, hp, rfl⟩ := hsp
    obtain ⟨q1, q2, q3, q4, q5⟩ := (scan_line_spec (fun y => mask.cell y x) mask.h).1 p hp
    exact ⟨q1, q2, q3, q4, q5⟩
  · apply List.pairwise_flatMap.mpr
    refine ⟨?_, ?_⟩
    · intro x _
      apply List.pairwise_map.mpr
      apply List.Pairwise.imp ?_ (scan_line_spec (fun y => mask.cell y x) mask.h).2
      intro p q hpq
      exact Or.inr ⟨rfl, hpq⟩
    · apply List.Pairwise.imp ?_ (List.pairwise_lt_range mask.w)
      intro x1 x2 h12 a ha b hb
      simp only [List.mem_map] at ha hb
      obtain ⟨p, _, rfl⟩ := ha
      obtain ⟨q, _, rfl⟩ := hb
      exact Or.inl h12
  · intro sp hsp
    simp only [List.mem_flatMap, List.mem_map] at hsp
    obtain ⟨y, hy, p, hp, rfl⟩ := hsp
    obtain ⟨q1, q2, q3, q4, q5⟩ := (scan_line_spec (fun x => mask.cell y x) mask.w).1 p hp
    exact ⟨q1, q2, q3, q4, q5⟩
  · apply List.pairwise_flatMap.mpr
    refine ⟨?_, ?_⟩
    · intro y _
      apply List.pairwise_map.mpr
      apply List.Pairwise.imp ?_ (scan_line_spec (fun x => mask.cell y x) mask.w).2
      intro p q hpq
      exact Or.inr ⟨rfl, hpq⟩
    · apply List.Pairwise.imp ?_ (List.pairwise_lt_range mask.h)
      intro y1 y2 h12 a ha b hb
      simp only [List.mem_map] at ha hb
      obtain ⟨p, _, rfl⟩ := ha
      obtain ⟨q, _, rfl⟩ := hb
      exact Or.inl h12

/-- Concrete `1 × 5` mask with pattern `[F, T, T, F, T]`, the end-to-end
scenario of the spec. -/
def mask1 : Mask :=
  { h := 1, w := 5, cell := fun _ x => x == 1 || x == 2 || x == 4 }

/-- Witness for C6 at the concrete mask `[F, T, T, F, T]`, whose first emitted
span is `(0, 1, 3)`. -/
theorem c6_witness :
    (1 : ℕ) < 3 ∧ line_cell mask1 true 0 2 = true :=
  ⟨((c6_span_invariants mask1 true).1 (0, 1, 3) (by decide)).1,
    ((c6_span_invariants mask1 true).1 (0, 1, 3) (by decide)).2.2.1 2
      (by decide) (by decide)⟩

/-! ## Claims about the pipeline orchestrator -/

theorem process_span_dims (horizontal : Bool) (metric : String) (reverse : Bool)
    (out : Image) (span : ℕ × ℕ × ℕ) :
    (process_span horizontal metric reverse out span).h = out.h ∧
      (process_span horizontal metric reverse out span).w = out.w := by
  cases horizontal <;> simp [process_span]

theorem foldl_process_span_dims (horizontal : Bool) (metric : String)
    (reverse : Bool) :
    ∀ (spans : List (ℕ × ℕ × ℕ)) (out : Image),
      ((spans.foldl (process_span horizontal metric reverse) out).h = out.h ∧
        (spans.foldl (process_span horizontal metric reverse) out).w = out.w) := by
  intro spans
  induction spans with
  | nil => exact fun out => ⟨rfl, rfl⟩
  | cons sp t ih =>
    intro out
    rw [List.foldl_cons]
    have h1 := process_span_dims horizontal metric reverse out sp
    have h2 := ih (process_span horizontal metric reverse out sp)
    exact ⟨h2.1.trans h1.1, h2.2.trans h1.2⟩

theorem sort_stage_dims (img : Image) (low_thresh high_thresh : ℚ)
    (channel : Channel) (invert : Bool) (random_offset : ℚ) (rand : ℕ → ℕ → ℚ)
    (horizontal : Bool) (metric : String) (reverse : Bool) :
    (sort_stage img low_thresh high_thresh channel invert random_offset rand
        horizontal metric reverse).h = img.h ∧
      (sort_stage img low_thresh high_thresh channel invert random_offset rand
        horizontal metric reverse).w = img.w := by
  simp only [sort_stage]
  exact foldl_process_span_dims horizontal metric reverse _ img

/-- Claim C9: the pipeline is a pure function of the input image and
configuration: the source writes only to `out = img.copy()` and to the fresh
array produced by the gamma expression, never to `img` (non-mutation is
inherent to this embedding because every buffer write is a functional update
of the copy), and for every valid configuration (`gamma > 0`) it returns an
output image whose dimensions equal those of the input. -/
theorem c9_pure_and_dims (img : Image) (low_thresh high_thresh : ℚ)
    (channel : Channel) (invert : Bool) (random_offset : ℚ) (rand : ℕ → ℕ → ℚ)
    (horizontal : Bool) (metric : String) (reverse : Bool) (gamma : ℚ)
    (hpos : 0 < gamma) :
    ∃ out, pixel_sort img low_thresh high_thresh channel invert random_offset
        rand horizontal metric reverse gamma = .ok out ∧
      out.h = img.h ∧ out.w = img.w := by
  have hdims := sort_stage_dims img low_thresh high_thresh channel invert
    random_offset rand horizontal metric reverse
  by_cases h1 : gamma = 1
  · subst h1
    exact ⟨_, by simp [pixel_sort], hdims.1, hdims.2⟩
  · have h0 : gamma ≠ 0 := ne_of_gt hpos
    exact ⟨apply_gamma (sort_stage img low_thresh high_thresh channel invert
        random_offset rand horizontal metric reverse) gamma,
      by simp [pixel_sort, h1, h0], hdims.1, hdims.2⟩

/-- Witness for C9 at a concrete one-pixel image and a concrete
configuration. -/
theorem c9_witness :
    (0 : ℚ) < 1 ∧
      ∃ out, pixel_sort img1 (3 / 10) (7 / 10) .luminance false 0 rand0 true
          "luminance" false 1 = .ok out ∧ out.h = img1.h ∧ out.w = img1.w :=
  ⟨by norm_num,
    c9_pure_and_dims img1 (3 / 10) (7 / 10) .luminance false 0 rand0 true
      "luminance" false 1 (by norm_num)⟩

theorem process_span_untouched (horizontal : Bool) (metric : String)
    (reverse : Bool) (out : Image) (span : ℕ × ℕ × ℕ) (y x : ℕ)
    (h : ¬ span_covers horizontal span y x) :
    (process_span horizontal metric reverse out span).pix y x = out.pix y x := by
  cases horizontal <;> simp only [process_span, span_covers] at h ⊢
  · exact if_neg fun hc => h ⟨hc.1.symm, hc.2.1, hc.2.2⟩
  · exact if_neg fun hc => h ⟨hc.1.symm, hc.2.1, hc.2.2⟩

theorem foldl_process_span_untouched (horizontal : Bool) (metric : String)
    (reverse : Bool) (y x : ℕ) :
    ∀ (spans : List (ℕ × ℕ × ℕ)) (out : Image),
      (∀ sp ∈ spans, ¬ span_covers horizontal sp y x) →
      (spans.foldl (process_span horizontal metric reverse) out).pix y x =
        out.pix y x := by
  intro spans
  induction spans with
  | nil => exact fun out _ => rfl
  | cons sp t ih =>
    intro out hall
    rw [List.foldl_cons,
      ih _ fun q hq => hall q (List.mem_cons_of_mem _ hq)]
    exact process_span_untouched horizontal metric reverse out sp y x
      (hall sp (List.mem_cons_self _ _))

/-- Claim C10: with `gamma = 1.0`, every pixel position not contained in any
extracted span keeps its input value: the pipeline only rewrites pixels inside
spans. -/
theorem c10_outside_spans_unchanged (img : Image) (low_thresh high_thresh : ℚ)
    (channel : Channel) (invert : Bool) (random_offset : ℚ) (rand : ℕ → ℕ → ℚ)
    (horizontal : Bool) (metric : String) (reverse : Bool) (y x : ℕ)
    (h : ∀ sp ∈ identify_spans
        (create_mask img low_thresh high_thresh channel invert random_offset rand)
        horizontal, ¬ span_covers horizontal sp y x) :
    ∃ out, pixel_sort img low_thresh high_thresh channel invert random_offset
        rand horizontal metric reverse 1 = .ok out ∧
      out.pix y x = img.pix y x := by
  refine ⟨sort_stage img low_thresh high_thresh channel invert random_offset
      rand horizontal metric reverse, by simp [pixel_sort], ?_⟩
  simp only [sort_stage]
  exact foldl_process_span_untouched horizontal metric reverse y x _ img h

theorem scan_go_all_clear (get : ℕ → Bool) :
    ∀ fuel pos, (∀ i, pos ≤ i → i < pos + fuel → get i = false) →
      scan_go get fuel pos none = [] := by
  intro fuel
  induction fuel with
  | zero => exact fun pos _ => rfl
  | succ fuel ih =>
    intro pos h
    have h0 : get pos = false := h pos le_rfl (by omega)
    have heq : scan_go get (fuel + 1) pos none = scan_go get fuel (pos + 1) none := by
      simp [scan_go, h0]
    rw [heq]
    exact ih (pos + 1) fun i h1 h2 => h i (by omega) (by omega)

theorem identify_spans_all_clear (mask : Mask)
    (h : ∀ y x, mask.cell y x = false) :
    identify_spans mask true = [] := by
  simp only [identify_spans, if_true]
  apply List.flatMap_eq_nil_iff.mpr
  intro y _
  rw [scan_line, scan_go_all_clear (fun x => mask.cell y x) mask.w 0
    fun i _ _ => h y i]
  rfl

theorem mask_img1_clear :
    ∀ y x, (create_mask img1 (1 / 2) 1 .luminance false 0 rand0).cell y x = false := by
  intro y x
  simp only [create_mask, img1, rand0, metric_value, lt_self_iff_false, if_false,
    Bool.false_eq_true]
  rw [decide_eq_false_iff_not]
  rintro ⟨h1, _⟩
  norm_num [luminance] at h1

theorem spans_img1_nil :
    identify_spans (create_mask img1 (1 / 2) 1 .luminance false 0 rand0) true = [] :=
  identify_spans_all_clear _ mask_img1_clear

/-- Witness for C10: in a one-pixel image whose pixel is below the threshold
band no span is extracted, so position `(0,0)` is outside every span and keeps
its value. -/
theorem c10_witness :
    (∀ sp ∈ identify_spans
        (create_mask img1 (1 / 2) 1 .luminance false 0 rand0) true,
        ¬ span_covers true sp 0 0) ∧
      ∃ out, pixel_sort img1 (1 / 2) 1 .luminance false 0 rand0 true
          "luminance" false 1 = .ok out ∧ out.pix 0 0 = img1.pix 0 0 :=
  ⟨by rw [spans_img1_nil]; intro sp hsp; exact absurd hsp (List.not_mem_nil sp),
    c10_outside_spans_unchanged img1 (1 / 2) 1 .luminance false 0 rand0 true
      "luminance" false 0 0
      (by rw [spans_img1_nil]; intro sp hsp; exact absurd hsp (List.not_mem_nil sp))⟩

/-- Counterexample to claim C2 as stated: at the concrete configuration with
`gamma = -1 ≤ 0` the pipeline does not reject the configuration — it completes
and produces an output image (no `InvalidGamma` error exists anywhere in the
code). -/
theorem c2_counterexample :
    (pixel_sort img1 (3 / 10) (7 / 10) .luminance false 0 rand0 true
        "luminance" false (-1)).isOk = true := by
  have h1 : (-1 : ℚ) ≠ 1 := by norm_num
  have h0 : (-1 : ℚ) ≠ 0 := by norm_num
  simp [pixel_sort, h1, h0, Except.isOk, Except.toBool]

/-- Claim C2, amended: the pipeline performs no gamma validation and surfaces
no `InvalidGamma` configuration error.  For `gamma < 0` it completes and
returns an output image computed with the exponent `1/gamma`; for `gamma = 0`
the Python scalar division `1/gamma` raises an unhandled `ZeroDivisionError`
(after the sorting stage has already run, not a configuration error reported
before producing output). -/
theorem c2_no_gamma_validation (img : Image) (low_thresh high_thresh : ℚ)
    (channel : Channel) (invert : Bool) (random_offset : ℚ) (rand : ℕ → ℕ → ℚ)
    (horizontal : Bool) (metric : String) (reverse : Bool) (gamma : ℚ) :
    (gamma < 0 → (pixel_sort img low_thresh high_thresh channel invert
        random_offset rand horizontal metric reverse gamma).isOk = true) ∧
      pixel_sort img low_thresh high_thresh channel invert random_offset rand
          horizontal metric reverse 0 = .error .zeroDivisionError := by
  constructor
  · intro hneg
    have h1 : gamma ≠ 1 := by intro h; rw [h] at hneg; norm_num at hneg
    have h0 : gamma ≠ 0 := ne_of_lt hneg
    simp [pixel_sort, h1, h0, Except.isOk, Except.toBool]
  · simp [pixel_sort]

/-- Witness for the amended C2 at `gamma = -1`. -/
theorem c2_witness :
    (-1 : ℚ) < 0 ∧
      ((pixel_sort img1 0 1 .hsl_l true 0 rand0 false "b" true (-1)).isOk = true ∧
        pixel_sort img1 0 1 .hsl_l true 0 rand0 false "b" true 0 =
          .error .zeroDivisionError) :=
  ⟨by norm_num,
    (c2_no_gamma_validation img1 0 1 .hsl_l true 0 rand0 false "b" true (-1)).1
        (by norm_num),
    (c2_no_gamma_validation img1 0 1 .hsl_l true 0 rand0 false "b" true (-1)).2⟩

theorem clip_floor_le_255 (X : ℝ) : (⌊min 255 (max 0 X)⌋).toNat ≤ 255 := by
  have hle : min (255 : ℝ) (max 0 X) ≤ (255 : ℝ) := min_le_left _ _
  have hfl : ⌊min (255 : ℝ) (max 0 X)⌋ ≤ (255 : ℤ) := by
    have h2 := Int.floor_mono hle
    simpa using h2
  exact Int.toNat_le.mpr (by exact_mod_cast hfl)

/-- Claim C7: for `gamma > 0` with `gamma ≠ 1`, the gamma step maps every
channel value through the spec formula `clamp(((v/255)^(1/gamma)) * 255, 0,
255)` converted to the integer pixel range (the value always lands in
`[0, 255]`), and the whole-image correction is exactly this map applied after
the sorting stage; when `gamma = 1.0` the step is skipped entirely and the
pipeline returns the buffer of the sorting stage byte-identical. -/
theorem c7_gamma_step (gamma : ℚ) (v : ℕ) (img : Image)
    (low_thresh high_thresh : ℚ) (channel : Channel) (invert : Bool)
    (random_offset : ℚ) (rand : ℕ → ℕ → ℚ) (horizontal : Bool) (metric : String)
    (reverse : Bool) :
    (0 < gamma → gamma ≠ 1 →
      gamma_channel gamma v = spec_gamma_channel gamma v ∧
      gamma_channel gamma v ≤ 255 ∧
      pixel_sort img low_thresh high_thresh channel invert random_offset rand
          horizontal metric reverse gamma =
        .ok (apply_gamma (sort_stage img low_thresh high_thresh channel invert
          random_offset rand horizontal metric reverse) gamma)) ∧
      pixel_sort img low_thresh high_thresh channel invert random_offset rand
          horizontal metric reverse 1 =
        .ok (sort_stage img low_thresh high_thresh channel invert random_offset
          rand horizontal metric reverse) := by
  constructor
  · intro hpos hne
    have h0 : gamma ≠ 0 := ne_of_gt hpos
    exact ⟨rfl, clip_floor_le_255 _, by simp [pixel_sort, hne, h0]⟩
  · simp [pixel_sort]

/-- Witness for C7 at `gamma = 1/2` and channel value `100`. -/
theorem c7_witness :
    ((0 : ℚ) < 1 / 2 ∧ (1 / 2 : ℚ) ≠ 1) ∧
      (gamma_channel (1 / 2) 100 = spec_gamma_channel (1 / 2) 100 ∧
        gamma_channel (1 / 2) 100 ≤ 255 ∧
        pixel_sort img1 (3 / 10) (7 / 10) .luminance false 0 rand0 true "r"
            false (1 / 2) =
          .ok (apply_gamma (sort_stage img1 (3 / 10) (7 / 10) .luminance false 0
            rand0 true "r" false) (1 / 2))) :=
  ⟨⟨by norm_num, by norm_num⟩,
    (c7_gamma_step (1 / 2) 100 img1 (3 / 10) (7 / 10) .luminance false 0 rand0
        true "r" false).1 (by norm_num) (by norm_num)⟩

end PixelSorting
